import Mathlib

/-!
Middleware chaining (`server/middleware.go`).

A shallow embedding of `MiddlewareChain` and of the Go values it works on:
slices with a length and a capacity, nil-able middleware function values, and
the calls the chain builder makes while it composes a handler.
-/

namespace Server

/-! ## Run-time faults -/

/-- The ways an evaluation of the embedded code can stop without a value.
The first three are Go run-time panics; `outOfFuel` is the recursion budget of
`MiddlewareChainFuel` running out and is not a Go behaviour. -/
inductive Abort where
  | indexOutOfRange
  | sliceBoundsOutOfRange
  | nilFuncCall
  | outOfFuel
  deriving DecidableEq, Repr

/-! ## Go slices -/

/-- A Go slice value. `backing` holds the elements of the underlying array from
the slice's first element up to its capacity, `len` is the slice's length; the
elements `backing[len..]` exist in memory but are outside the slice. -/
structure Slice (α : Type) where
  backing : List α
  len : Nat
  len_le : len ≤ backing.length

namespace Slice

variable {α : Type}

/-- Go `cap(s)`. -/
def cap (s : Slice α) : Nat := s.backing.length

/-- The elements of the slice proper, `s[0..len(s)-1]`. -/
def elems (s : Slice α) : List α := s.backing.take s.len

/-- Go index expression `s[i]`: panics unless `i < len(s)`. -/
def index (s : Slice α) (i : Nat) : Except Abort α :=
  if h : i < s.len then
    .ok (s.backing.get ⟨i, lt_of_lt_of_le h s.len_le⟩)
  else
    .error .indexOutOfRange

/-- Go slice expression `s[lo:hi]`: panics unless `lo ≤ hi ≤ cap(s)`; the
result starts at element `lo`, has length `hi - lo` and capacity
`cap(s) - lo`. -/
def slice (s : Slice α) (lo hi : Nat) : Except Abort (Slice α) :=
  if h : lo ≤ hi ∧ hi ≤ s.cap then
    .ok ⟨s.backing.drop lo, hi - lo, by
      have h2 : hi ≤ s.backing.length := h.2
      simp only [List.length_drop]
      omega⟩
  else
    .error .sliceBoundsOutOfRange

end Slice

/-- The slice a variadic call `f(x0, ..., x(k-1))` binds to its `...T`
parameter: a fresh array holding exactly the arguments, so length and capacity
are both `k`. -/
def variadic {α : Type} (l : List α) : Slice α := ⟨l, l.length, le_refl _⟩

/-! ## Handlers and middlewares -/

/-- Modelled from the spec: the declaration of `HandlerFunc` is not in the
source file; a handler takes an execution context, a response capability and
the inbound message, returns nothing and acts on the world. -/
abbrev HandlerFunc (κ ρ δ σ : Type) : Type := κ → ρ → δ → σ → σ

/-- A non-nil value of type `MiddlewareFunc`, `func(next HandlerFunc)
HandlerFunc`: called with `next`, it may run its preinitialization on the world
and returns the wrapping handler. The chain builder never invokes a handler, so
the handler type `H` is left open. -/
abbrev Transform (H σ : Type) : Type := H → σ → H × σ

/-- A Go value of type `MiddlewareFunc`: `none` is the nil function value. -/
abbrev MiddlewareFunc (H σ : Type) : Type := Option (Transform H σ)

/-- The program state while a chain is built: the world the middlewares act
on, and a ghost record `applied` of the middleware function values called so
far, oldest first. -/
structure Store (H σ : Type) where
  world : σ
  applied : List (Transform H σ)

/-- A call `f(h)` of a middleware function value: calling nil panics; otherwise
the transform runs on the world and the call is recorded. -/
def callMiddleware {H σ : Type} (f : MiddlewareFunc H σ) (h : H) (s : Store H σ) :
    Except Abort (H × Store H σ) :=
  match f with
  | none => .error .nilFuncCall
  | some t => .ok ((t h s.world).1, ⟨(t h s.world).2, s.applied ++ [t]⟩)

/-! ## The chain builder -/

/-- The body of `MiddlewareChain`, with a budget of nested calls:
```go
if len(m) == 0 { return next }
return m[0](MiddlewareChain(next, m[1:cap(m)]...))
```
-/
def MiddlewareChainFuel {H σ : Type} :
    Nat → H → Slice (MiddlewareFunc H σ) → Store H σ → Except Abort (H × Store H σ)
  | 0, _, _, _ => .error .outOfFuel
  | fuel + 1, next, m, s =>
    if m.len = 0 then
      .ok (next, s)
    else
      match m.index 0 with
      | .error e => .error e
      | .ok f =>
        match m.slice 1 m.cap with
        | .error e => .error e
        | .ok rest =>
          match MiddlewareChainFuel fuel next rest s with
          | .error e => .error e
          | .ok (inner, s1) => callMiddleware f inner s1

/-- `MiddlewareChain(next, m...)`: the recursion is given `cap(m) + 1` nested
calls, which it never exceeds. -/
def MiddlewareChain {H σ : Type} (next : H) (m : Slice (MiddlewareFunc H σ))
    (s : Store H σ) : Except Abort (H × Store H σ) :=
  MiddlewareChainFuel (m.cap + 1) next m s

/-- The two-step composition `MiddlewareChain(MiddlewareChain(T, h...), g...)`:
the inner call is evaluated first and its result is the `next` of the outer
call. -/
def MiddlewareChainTwice {H σ : Type} (T : H) (h g : Slice (MiddlewareFunc H σ))
    (s : Store H σ) : Except Abort (H × Store H σ) :=
  match MiddlewareChain T h s with
  | .error e => .error e
  | .ok (inner, s1) => MiddlewareChain inner g s1

/-! ## Specification-side definitions -/

/-- The nested application `m[0](m[1](...(m[k-1](next))...))` of the spec, as
the right fold of the call over the sequence seeded with `next`: the argument
of each call is evaluated before the call. -/
def nested {H σ : Type} (l : List (MiddlewareFunc H σ)) (next : H) (s : Store H σ) :
    Except Abort (H × Store H σ) :=
  l.foldr
    (fun f acc =>
      match acc with
      | .error e => .error e
      | .ok (inner, s1) => callMiddleware f inner s1)
    (.ok (next, s))

/-- The iterative reverse-order accumulation of the spec, from position `i`
down to position 0: `acc := m[i-1](acc)`, then continue with `i - 1`. -/
def accumulate {H σ : Type} (m : Slice (MiddlewareFunc H σ)) :
    Nat → H → Store H σ → Except Abort (H × Store H σ)
  | 0, acc, s => .ok (acc, s)
  | i + 1, acc, s =>
    match m.index i with
    | .error e => .error e
    | .ok f =>
      match callMiddleware f acc s with
      | .error e => .error e
      | .ok (acc1, s1) => accumulate m i acc1 s1

/-- The iterative chain builder of the spec: start with `acc = next`, then for
`i` from `len(m) - 1` down to 0 set `acc := m[i](acc)`, and return `acc`. -/
def iterativeChain {H σ : Type} (next : H) (m : Slice (MiddlewareFunc H σ))
    (s : Store H σ) : Except Abort (H × Store H σ) :=
  accumulate m m.len next s

/-! ## Handlers and middlewares of the spec's scenarios -/

section Scenarios

variable {κ ρ δ : Type}

/-- The terminal handler of the scenarios: appends `"T"` to the shared log. -/
def terminal : HandlerFunc κ ρ δ (List String) :=
  fun _ _ _ log => log ++ ["T"]

/-- The logging middleware of the scenarios: its handler appends
`"<name>-pre"`, calls `next` once with the arguments it received, then appends
`"<name>-post"`. It has no preinitialization. -/
def logging (name : String) : Transform (HandlerFunc κ ρ δ (List String)) (List String) :=
  fun next w =>
    (fun ctx rw d log => next ctx rw d (log ++ [name ++ "-pre"]) ++ [name ++ "-post"], w)

/-- A retry middleware: its handler calls `next` exactly `n` times in
sequence, with the arguments it received. -/
def retry {σ : Type} (n : Nat) : Transform (HandlerFunc κ ρ δ σ) σ :=
  fun next w => (fun ctx rw d x => (next ctx rw d)^[n] x, w)

/-- Invoking what a build returned, once, on the given world; a build that
panicked leaves the world as it is. -/
def invoke {σ : Type} (r : Except Abort (HandlerFunc κ ρ δ σ × Store (HandlerFunc κ ρ δ σ) σ))
    (ctx : κ) (rw : ρ) (d : δ) (x : σ) : σ :=
  match r with
  | .error _ => x
  | .ok (h, _) => h ctx rw d x

end Scenarios

/-! ## Concrete inputs -/

/-- The handlers of the scenarios, with no information in the three arguments. -/
abbrev LogHandler : Type := HandlerFunc Unit Unit Unit (List String)

/-- The store a scenario build starts from: an empty log, nothing applied. -/
def emptyStore : Store LogHandler (List String) := ⟨[], []⟩

/-- The slice `arr[:1]` of `arr := []MiddlewareFunc{A, B}`: length 1,
capacity 2, with the logging middleware `B` in the spare capacity. -/
def spareAB : Slice (MiddlewareFunc LogHandler (List String)) :=
  ⟨[some (logging "A"), some (logging "B")], 1, by decide⟩

/-- The slice `m := make([]MiddlewareFunc, 1, 2); m[0] = A`: length 1,
capacity 2, with the zero value nil in the spare capacity. -/
def spareNil : Slice (MiddlewareFunc LogHandler (List String)) :=
  ⟨[some (logging "A"), none], 1, by decide⟩

/-- The slice `make([]MiddlewareFunc, 0, 1)`: empty, with capacity 1. -/
def emptySpare : Slice (MiddlewareFunc LogHandler (List String)) :=
  ⟨[none], 0, by decide⟩

/-- The slice a call `MiddlewareChain(T, A)` binds to `m`: length 1,
capacity 1. -/
def onlyA : Slice (MiddlewareFunc LogHandler (List String)) :=
  variadic [some (logging "A")]

/-- A terminal handler on boolean contexts that reports the context it was
invoked with. -/
def terminalReporting : HandlerFunc Bool Unit Unit (List String) :=
  fun ctx _ _ log => log ++ [if ctx then "T got true" else "T got false"]

/-- A middleware on boolean contexts whose handler replaces the context: it
calls `next` with the negated context. -/
def flipCtx : Transform (HandlerFunc Bool Unit Unit (List String)) (List String) :=
  fun next w => (fun ctx rw d log => next (!ctx) rw d log, w)

/-- The slice `arr[:1]` of `arr := []MiddlewareFunc{A, flipCtx}` on boolean
contexts: length 1, capacity 2, with `flipCtx` in the spare capacity. -/
def spareFlip : Slice (MiddlewareFunc (HandlerFunc Bool Unit Unit (List String)) (List String)) :=
  ⟨[some (logging "A"), some flipCtx], 1, by decide⟩

/-- The empty slice `[]MiddlewareFunc{}`: length 0, capacity 0. -/
def noMiddlewares : Slice (MiddlewareFunc LogHandler (List String)) :=
  variadic []

/-- A logging middleware with a preinitialization: called at build time it
appends `"<name>-setup"` to the shared log, and the handler it returns is the
one of `logging name`. -/
def announcing {κ ρ δ : Type} (name : String) :
    Transform (HandlerFunc κ ρ δ (List String)) (List String) :=
  fun next w => ((logging name next w).1, w ++ [name ++ "-setup"])

/-! ## Properties of middlewares used as hypotheses -/

/-- The handler a middleware returns passes the `(ctx, rw, d)` it received
unchanged to `next`: what it does on `(ctx, rw, d)` depends on `next` only
through what `next` does on that same `(ctx, rw, d)`, and the
preinitialization does not use `next`. -/
def PassesArguments {κ ρ δ σ : Type} (t : Transform (HandlerFunc κ ρ δ σ) σ) : Prop :=
  ∀ (next next' : HandlerFunc κ ρ δ σ) (w : σ),
    (t next w).2 = (t next' w).2 ∧
    ∀ (ctx : κ) (rw : ρ) (d : δ),
      next ctx rw d = next' ctx rw d → (t next w).1 ctx rw d = (t next' w).1 ctx rw d

/-! ## Lemmas on slices and on the fold -/

theorem Slice.index_zero_cons {α : Type} (a : α) (l : List α) (n : Nat)
    (h : n + 1 ≤ (a :: l).length) :
    Slice.index ⟨a :: l, n + 1, h⟩ 0 = .ok a := by
  simp [Slice.index]

theorem Slice.slice_one_cap_cons {α : Type} (a : α) (l : List α) (n : Nat)
    (h : n + 1 ≤ (a :: l).length) :
    Slice.slice ⟨a :: l, n + 1, h⟩ 1 (Slice.cap ⟨a :: l, n + 1, h⟩) = .ok (variadic l) := by
  simp [Slice.slice, Slice.cap, variadic]

theorem nested_nil {H σ : Type} (next : H) (s : Store H σ) :
    nested [] next s = .ok (next, s) := rfl

theorem nested_cons {H σ : Type} (f : MiddlewareFunc H σ) (l : List (MiddlewareFunc H σ))
    (next : H) (s : Store H σ) :
    nested (f :: l) next s =
      match nested l next s with
      | .error e => .error e
      | .ok (inner, s1) => callMiddleware f inner s1 := rfl

/-- On a slice whose length equals its capacity the recursion is the fold over
its elements, for every budget above the capacity. -/
theorem MiddlewareChainFuel_variadic {H σ : Type} (next : H) (s : Store H σ) :
    ∀ (l : List (MiddlewareFunc H σ)) (fuel : Nat), l.length < fuel →
      MiddlewareChainFuel fuel next (variadic l) s = nested l next s
  | [], fuel, h => by
    obtain ⟨k, rfl⟩ : ∃ k, fuel = k + 1 := ⟨fuel - 1, by simp at h; omega⟩
    simp [MiddlewareChainFuel, variadic, nested]
  | f :: l, fuel, h => by
    obtain ⟨k, rfl⟩ : ∃ k, fuel = k + 1 := ⟨fuel - 1, by omega⟩
    have hk : l.length < k := by simp at h; omega
    have ih := MiddlewareChainFuel_variadic next s l k hk
    have hidx := Slice.index_zero_cons f l l.length (le_refl _)
    have hsl := Slice.slice_one_cap_cons f l l.length (le_refl _)
    rw [nested_cons, ← ih]
    simp only [MiddlewareChainFuel, variadic, List.length_cons] at *
    simp [hidx, hsl]

/-- On a non-empty slice the recursion is the fold over the whole backing
array up to the capacity, for every budget above the capacity. -/
theorem MiddlewareChainFuel_pos {H σ : Type} (next : H) (s : Store H σ)
    (m : Slice (MiddlewareFunc H σ)) (fuel : Nat) (hlen : 0 < m.len) (hfuel : m.cap < fuel) :
    MiddlewareChainFuel fuel next m s = nested m.backing next s := by
  obtain ⟨backing, len, hle⟩ := m
  obtain ⟨k, rfl⟩ : ∃ k, fuel = k + 1 := ⟨fuel - 1, by omega⟩
  obtain ⟨n, rfl⟩ : ∃ n, len = n + 1 := ⟨len - 1, by simp at hlen; omega⟩
  cases backing with
  | nil => simp at hle
  | cons f l =>
    have hk : l.length < k := by simp [Slice.cap] at hfuel; omega
    have ih := MiddlewareChainFuel_variadic next s l k hk
    have hidx := Slice.index_zero_cons f l n hle
    have hsl := Slice.slice_one_cap_cons f l n hle
    rw [nested_cons, ← ih]
    simp only [MiddlewareChainFuel]
    simp [hidx, hsl]

theorem MiddlewareChain_variadic {H σ : Type} (next : H) (l : List (MiddlewareFunc H σ))
    (s : Store H σ) :
    MiddlewareChain next (variadic l) s = nested l next s :=
  MiddlewareChainFuel_variadic next s l _ (by simp [variadic, Slice.cap])

theorem MiddlewareChain_pos {H σ : Type} (next : H) (m : Slice (MiddlewareFunc H σ))
    (s : Store H σ) (hlen : 0 < m.len) :
    MiddlewareChain next m s = nested m.backing next s :=
  MiddlewareChainFuel_pos next s m _ hlen (Nat.lt_succ_self _)

theorem MiddlewareChain_len_zero {H σ : Type} (next : H) (m : Slice (MiddlewareFunc H σ))
    (s : Store H σ) (hlen : m.len = 0) :
    MiddlewareChain next m s = .ok (next, s) := by
  simp [MiddlewareChain, MiddlewareChainFuel, hlen]

theorem nested_append {H σ : Type} (g h : List (MiddlewareFunc H σ)) (next : H)
    (s : Store H σ) :
    nested (g ++ h) next s =
      match nested h next s with
      | .error e => .error e
      | .ok (inner, s1) => nested g inner s1 := by
  induction g with
  | nil =>
    simp only [List.nil_append]
    cases nested h next s with
    | error e => rfl
    | ok r => rfl
  | cons f g ih =>
    rw [List.cons_append, nested_cons, ih]
    cases nested h next s with
    | error e => rfl
    | ok r => rfl

theorem nested_singleton {H σ : Type} (f : MiddlewareFunc H σ) (next : H) (s : Store H σ) :
    nested [f] next s = callMiddleware f next s := rfl

/-- A sequence of non-nil middlewares composes without a fault, and records
its applications last element first. -/
theorem nested_map_some {H σ : Type} (l : List (Transform H σ)) (next : H) (s : Store H σ) :
    ∃ h s', nested (l.map some) next s = .ok (h, s') ∧ s'.applied = s.applied ++ l.reverse := by
  induction l with
  | nil => exact ⟨next, s, rfl, by simp⟩
  | cons t l ih =>
    obtain ⟨h, s', hn, ha⟩ := ih
    refine ⟨(t h s'.world).1, ⟨(t h s'.world).2, s'.applied ++ [t]⟩, ?_, ?_⟩
    · rw [List.map_cons, nested_cons, hn]
      rfl
    · simp [ha]

/-- The chain of logging middlewares around any handler. -/
theorem nested_logging {κ ρ δ : Type} (names : List String)
    (next : HandlerFunc κ ρ δ (List String))
    (s : Store (HandlerFunc κ ρ δ (List String)) (List String)) :
    ∃ h s', nested (names.map fun n => some (logging n)) next s = .ok (h, s') ∧
      ∀ ctx rw d log, h ctx rw d log =
        next ctx rw d (log ++ names.map (· ++ "-pre")) ++ names.reverse.map (· ++ "-post") := by
  induction names with
  | nil => exact ⟨next, s, rfl, by simp⟩
  | cons n names ih =>
    obtain ⟨h, s', hn, hh⟩ := ih
    refine ⟨(logging n h s'.world).1, ⟨(logging n h s'.world).2, s'.applied ++ [logging n]⟩,
      ?_, ?_⟩
    · rw [List.map_cons, nested_cons, hn]
      rfl
    · intro ctx rw d log
      simp [logging, hh, List.append_assoc]

/-- The downward accumulation from position `i` is the fold over the first
`i` elements. -/
theorem accumulate_variadic {H σ : Type} (l : List (MiddlewareFunc H σ)) :
    ∀ (i : Nat), i ≤ l.length → ∀ (acc : H) (s : Store H σ),
      accumulate (variadic l) i acc s = nested (l.take i) acc s
  | 0, _, acc, s => by simp [accumulate, nested]
  | i + 1, hi, acc, s => by
    have hlt : i < l.length := hi
    have hidx : (variadic l).index i = .ok (l.get ⟨i, hlt⟩) := by
      simp [Slice.index, variadic, hlt]
    have htake : l.take (i + 1) = l.take i ++ [l.get ⟨i, hlt⟩] := by
      rw [List.take_succ, List.getElem?_eq_getElem hlt]
      rfl
    rw [htake, nested_append, nested_singleton]
    simp only [accumulate, hidx]
    cases hc : callMiddleware (l.get ⟨i, hlt⟩) acc s with
    | error e => rfl
    | ok r => exact accumulate_variadic l i (Nat.le_of_lt hlt) r.1 r.2

/-- Appending a fixed block `n` times. -/
theorem iterate_append_block {α : Type} (b : List α) (n : Nat) (log : List α) :
    (fun x => x ++ b)^[n] log = log ++ (List.replicate n b).flatten := by
  induction n generalizing log with
  | zero => simp
  | succ n ih =>
    rw [Function.iterate_succ_apply, ih, List.replicate_succ, List.flatten_cons,
      List.append_assoc]

/-- Two builds of the same argument-passing middlewares around terminal
handlers that agree on `(ctx, rw, d)` end in the same program state with
handlers that agree on `(ctx, rw, d)`. -/
theorem nested_passes_arguments {κ ρ δ σ : Type}
    (l : List (Transform (HandlerFunc κ ρ δ σ) σ)) (hl : ∀ t ∈ l, PassesArguments t)
    (T T' : HandlerFunc κ ρ δ σ) (s : Store (HandlerFunc κ ρ δ σ) σ)
    (ctx : κ) (rw : ρ) (d : δ) (hT : T ctx rw d = T' ctx rw d) :
    ∃ h h' s', nested (l.map some) T s = .ok (h, s') ∧
      nested (l.map some) T' s = .ok (h', s') ∧ h ctx rw d = h' ctx rw d := by
  induction l with
  | nil => exact ⟨T, T', s, rfl, rfl, hT⟩
  | cons t l ih =>
    obtain ⟨h, h', s', hn, hn', hh⟩ := ih (fun u hu => hl u (List.mem_cons_of_mem t hu))
    have ht := hl t (List.mem_cons_self t l) h h' s'.world
    refine ⟨(t h s'.world).1, (t h' s'.world).1, ⟨(t h s'.world).2, s'.applied ++ [t]⟩,
      ?_, ?_, ht.2 ctx rw d hh⟩
    · rw [List.map_cons, nested_cons, hn]
      rfl
    · rw [List.map_cons, nested_cons, hn', ht.1]
      rfl

theorem logging_passesArguments {κ ρ δ : Type} (name : String) :
    PassesArguments (logging name : Transform (HandlerFunc κ ρ δ (List String)) (List String)) := by
  intro next next' w
  refine ⟨rfl, ?_⟩
  intro ctx rw d h
  funext log
  simp [logging, h]

theorem retry_passesArguments {κ ρ δ σ : Type} (n : Nat) :
    PassesArguments (retry n : Transform (HandlerFunc κ ρ δ σ) σ) := by
  intro next next' w
  refine ⟨rfl, ?_⟩
  intro ctx rw d h
  funext x
  simp [retry, h]

/-- The fold ends in a handler or in the panic of a nil call, never in an
exhausted budget. -/
theorem nested_ok_or_nilFuncCall {H σ : Type} (l : List (MiddlewareFunc H σ)) (next : H)
    (s : Store H σ) :
    (∃ r, nested l next s = .ok r) ∨ nested l next s = .error .nilFuncCall := by
  induction l with
  | nil => exact Or.inl ⟨(next, s), rfl⟩
  | cons f l ih =>
    rw [nested_cons]
    rcases ih with ⟨r, hr⟩ | he
    · rw [hr]
      cases f with
      | none => exact Or.inr rfl
      | some t => exact Or.inl ⟨_, rfl⟩
    · rw [he]
      exact Or.inr rfl

theorem nested_ne_outOfFuel {H σ : Type} (l : List (MiddlewareFunc H σ)) (next : H)
    (s : Store H σ) : nested l next s ≠ .error .outOfFuel := by
  rcases nested_ok_or_nilFuncCall l next s with ⟨r, hr⟩ | he
  · rw [hr]; intro h; cases h
  · rw [he]; intro h; cases h

theorem MiddlewareChainFuel_len_zero {H σ : Type} (next : H) (m : Slice (MiddlewareFunc H σ))
    (s : Store H σ) (fuel : Nat) (hlen : m.len = 0) :
    MiddlewareChainFuel (fuel + 1) next m s = .ok (next, s) := by
  simp [MiddlewareChainFuel, hlen]

/-- On a slice whose length equals its capacity, a budget of at most the
capacity is exhausted before any middleware is called. -/
theorem MiddlewareChainFuel_variadic_short {H σ : Type} (next : H) (s : Store H σ) :
    ∀ (l : List (MiddlewareFunc H σ)) (fuel : Nat), fuel ≤ l.length →
      MiddlewareChainFuel fuel next (variadic l) s = .error .outOfFuel
  | _, 0, _ => rfl
  | [], fuel + 1, h => by simp at h
  | f :: l, fuel + 1, h => by
    have hk : fuel ≤ l.length := by simp at h; omega
    have ih := MiddlewareChainFuel_variadic_short next s l fuel hk
    have hidx := Slice.index_zero_cons f l l.length (le_refl _)
    have hsl := Slice.slice_one_cap_cons f l l.length (le_refl _)
    simp only [MiddlewareChainFuel, variadic, List.length_cons] at *
    simp [hidx, hsl, ih]

/-- On a non-empty slice a budget equal to the capacity is exhausted. -/
theorem MiddlewareChainFuel_pos_short {H σ : Type} (next : H) (s : Store H σ)
    (m : Slice (MiddlewareFunc H σ)) (hlen : 0 < m.len) :
    MiddlewareChainFuel m.cap next m s = .error .outOfFuel := by
  obtain ⟨backing, len, hle⟩ := m
  obtain ⟨n, rfl⟩ : ∃ n, len = n + 1 := ⟨len - 1, by simp at hlen; omega⟩
  cases backing with
  | nil => simp at hle
  | cons f l =>
    have ih := MiddlewareChainFuel_variadic_short next s l l.length (le_refl _)
    have hidx := Slice.index_zero_cons f l n hle
    have hsl : Slice.slice ⟨f :: l, n + 1, hle⟩ 1 (l.length + 1) = .ok (variadic l) :=
      Slice.slice_one_cap_cons f l n hle
    simp only [Slice.cap, List.length_cons, MiddlewareChainFuel]
    simp [hidx, hsl, ih]

/-- The slice handed to the recursive call. -/
theorem Slice.slice_one_cap_of_pos {α : Type} (m : Slice α) (hlen : 0 < m.len) :
    ∃ rest, m.slice 1 m.cap = .ok rest ∧ rest.backing = m.backing.tail ∧
      rest.len = m.cap - 1 ∧ rest.cap = m.cap - 1 := by
  obtain ⟨backing, len, hle⟩ := m
  obtain ⟨n, rfl⟩ : ∃ n, len = n + 1 := ⟨len - 1, by simp at hlen; omega⟩
  cases backing with
  | nil => simp at hle
  | cons a l =>
    exact ⟨variadic l, Slice.slice_one_cap_cons a l n hle, rfl, by simp [variadic, Slice.cap],
      by simp [variadic, Slice.cap]⟩

/-- The chain of announcing middlewares around any handler: the setups are
logged last name first, the handler is the one of the logging chain. -/
theorem nested_announcing {κ ρ δ : Type} (names : List String)
    (next : HandlerFunc κ ρ δ (List String))
    (s : Store (HandlerFunc κ ρ δ (List String)) (List String)) :
    ∃ h s', nested (names.map fun n => some (announcing n)) next s = .ok (h, s') ∧
      s'.world = s.world ++ names.reverse.map (· ++ "-setup") ∧
      ∀ ctx rw d log, h ctx rw d log =
        next ctx rw d (log ++ names.map (· ++ "-pre")) ++ names.reverse.map (· ++ "-post") := by
  induction names with
  | nil => exact ⟨next, s, rfl, by simp, by simp⟩
  | cons n names ih =>
    obtain ⟨h, s', hn, hw, hh⟩ := ih
    refine ⟨(announcing n h s'.world).1,
      ⟨(announcing n h s'.world).2, s'.applied ++ [announcing n]⟩, ?_, ?_, ?_⟩
    · rw [List.map_cons, nested_cons, hn]
      rfl
    · simp [announcing, hw, List.append_assoc]
    · intro ctx rw d log
      simp [announcing, logging, hh, List.append_assoc]

/-- On slices holding exactly the sequences (capacity = length), composing `h`
around `T` and then `g` around the result is the single composition of
`g ++ h` around `T`. -/
theorem MiddlewareChainTwice_variadic {H σ : Type} (T : H) (g h : List (MiddlewareFunc H σ))
    (s : Store H σ) :
    MiddlewareChainTwice T (variadic h) (variadic g) s =
      MiddlewareChain T (variadic (g ++ h)) s := by
  rw [MiddlewareChainTwice, MiddlewareChain_variadic T (g ++ h), nested_append,
    MiddlewareChain_variadic T h]
  cases nested h T s with
  | error e => rfl
  | ok r => exact MiddlewareChain_variadic r.1 g r.2

/-- On variadic arguments the build calls exactly the middlewares given, each
position once: the record grows by the sequence reversed. -/
theorem MiddlewareChain_variadic_applied {H σ : Type} (T : H) (l : List (Transform H σ))
    (s : Store H σ) :
    ∃ h s', MiddlewareChain T (variadic (l.map some)) s = .ok (h, s') ∧
      s'.applied = s.applied ++ l.reverse ∧
      s'.applied.length = s.applied.length + l.length := by
  obtain ⟨h, s', hn, ha⟩ := nested_map_some l T s
  refine ⟨h, s', ?_, ha, ?_⟩
  · rw [MiddlewareChain_variadic, hn]
  · simp [ha]

/-- On variadic arguments the recursion returns what the iterative
reverse-order accumulation returns. -/
theorem MiddlewareChain_variadic_eq_iterativeChain {H σ : Type} (next : H)
    (l : List (MiddlewareFunc H σ)) (s : Store H σ) :
    MiddlewareChain next (variadic l) s = iterativeChain next (variadic l) s := by
  rw [MiddlewareChain_variadic]
  show nested l next s = accumulate (variadic l) l.length next s
  rw [accumulate_variadic l l.length (le_refl _), List.take_length]

/-- On variadic arguments, argument-passing middlewares give a composed handler
whose effect on `(ctx, rw, d)` is fixed by the terminal handler's effect on
that same `(ctx, rw, d)`. -/
theorem MiddlewareChain_variadic_passes_arguments {κ ρ δ σ : Type}
    (l : List (Transform (HandlerFunc κ ρ δ σ) σ)) (hl : ∀ t ∈ l, PassesArguments t)
    (T T' : HandlerFunc κ ρ δ σ) (s : Store (HandlerFunc κ ρ δ σ) σ)
    (ctx : κ) (rw : ρ) (d : δ) (hT : T ctx rw d = T' ctx rw d) :
    ∃ h h' s', MiddlewareChain T (variadic (l.map some)) s = .ok (h, s') ∧
      MiddlewareChain T' (variadic (l.map some)) s = .ok (h', s') ∧
      h ctx rw d = h' ctx rw d := by
  obtain ⟨h, h', s', hn, hn', hh⟩ := nested_passes_arguments l hl T T' s ctx rw d hT
  exact ⟨h, h', s', by rw [MiddlewareChain_variadic, hn], by rw [MiddlewareChain_variadic, hn'],
    hh⟩

/-! ## The claims -/

/-- C1 (the code departs from the claim on a spread slice with spare capacity):
on the slice `arr[:1]` of `arr = [A, B]`, a middleware sequence of length 1,
`MiddlewareChain(T, m...)` is not the nested application `A(T)` over the one
element of `m`: invoked on an empty log the built handler also runs `B`, which
lies beyond `len(m)`, while `A(T)` logs `A-pre, T, A-post`. -/
theorem MiddlewareChain_spread_slice_runs_spare_capacity :
    spareAB.elems = [some (logging "A")] ∧
    invoke (MiddlewareChain terminal spareAB emptyStore) () () () [] =
      ["A-pre", "B-pre", "T", "B-post", "A-post"] ∧
    invoke (nested spareAB.elems terminal emptyStore) () () () [] =
      ["A-pre", "T", "A-post"] ∧
    MiddlewareChain terminal spareAB emptyStore ≠ nested spareAB.elems terminal emptyStore := by
  refine ⟨rfl, by decide, by decide, ?_⟩
  intro h
  have h2 := congrArg (fun r => invoke r () () () []) h
  revert h2
  decide

/-- C2: for every handler `T` and every slice of length 0, whatever its
capacity, `MiddlewareChain(T, m...)` returns `T` itself and leaves the program
state untouched: no middleware is applied and no layer is added. -/
theorem MiddlewareChain_empty_is_identity {H σ : Type} (T : H)
    (m : Slice (MiddlewareFunc H σ)) (s : Store H σ) (hlen : m.len = 0) :
    MiddlewareChain T m s = .ok (T, s) :=
  MiddlewareChain_len_zero T m s hlen

theorem MiddlewareChain_empty_is_identity_witness :
    emptySpare.len = 0 ∧
    MiddlewareChain terminal emptySpare emptyStore = .ok (terminal, emptyStore) ∧
    MiddlewareChain terminal (variadic []) emptyStore = .ok (terminal, emptyStore) :=
  ⟨rfl, MiddlewareChain_empty_is_identity terminal emptySpare emptyStore rfl,
    MiddlewareChain_empty_is_identity terminal (variadic []) emptyStore rfl⟩

/-- C3: for every list of names, the logging middlewares of those names
composed around the terminal handler by `MiddlewareChain(T, m0, ..., m(k-1))`
build a handler that, invoked once on an empty log, leaves exactly the
pre-entries in input order, then `T`, then the post-entries in reverse input
order; for `[A, B, C]` that is `A-pre, B-pre, C-pre, T, C-post, B-post,
A-post`. -/
theorem MiddlewareChain_order_law :
    (∀ (κ ρ δ : Type) (names : List String) (ctx : κ) (rw : ρ) (d : δ)
        (s : Store (HandlerFunc κ ρ δ (List String)) (List String)),
      ∃ h s', MiddlewareChain terminal (variadic (names.map fun n => some (logging n))) s
          = .ok (h, s') ∧
        h ctx rw d [] =
          names.map (· ++ "-pre") ++ ["T"] ++ names.reverse.map (· ++ "-post")) ∧
    invoke (MiddlewareChain terminal
        (variadic [some (logging "A"), some (logging "B"), some (logging "C")]) emptyStore)
        () () () [] =
      ["A-pre", "B-pre", "C-pre", "T", "C-post", "B-post", "A-post"] := by
  refine ⟨?_, by decide⟩
  intro κ ρ δ names ctx rw d s
  obtain ⟨h, s', hn, hh⟩ := nested_logging names (terminal : HandlerFunc κ ρ δ (List String)) s
  refine ⟨h, s', ?_, ?_⟩
  · rw [MiddlewareChain_variadic, hn]
  · rw [hh]
    simp [terminal]

/-- C5 (the code departs from the claim on a spread slice with spare capacity):
with `g = arr[:1]` of `arr = [A, B]` and `h` empty, the two-step composition
`MiddlewareChain(MiddlewareChain(T, h...), g...)` builds `A(B(T))`, while the
single composition over the concatenated sequence `g ++ h = [A]` builds `A(T)`;
and with nil in the spare capacity of `g` the two-step composition panics
while the single composition returns a handler. -/
theorem MiddlewareChainTwice_spare_capacity_differs :
    spareAB.elems ++ noMiddlewares.elems = [some (logging "A")] ∧
    invoke (MiddlewareChainTwice terminal noMiddlewares spareAB emptyStore) () () () [] =
      ["A-pre", "B-pre", "T", "B-post", "A-post"] ∧
    invoke (MiddlewareChain terminal (variadic (spareAB.elems ++ noMiddlewares.elems))
        emptyStore) () () () [] =
      ["A-pre", "T", "A-post"] ∧
    spareNil.elems ++ noMiddlewares.elems = [some (logging "A")] ∧
    MiddlewareChainTwice terminal noMiddlewares spareNil emptyStore = .error .nilFuncCall ∧
    (∃ r, MiddlewareChain terminal (variadic (spareNil.elems ++ noMiddlewares.elems))
        emptyStore = .ok r) :=
  ⟨rfl, by decide, by decide, rfl, rfl, ⟨_, rfl⟩⟩

/-- C6 (the code departs from the claim on a slice with spare capacity): on
`m := make([]MiddlewareFunc, 1, 2); m[0] = A`, whose one element within
`len(m)` is a valid middleware, `MiddlewareChain(T, m...)` does not return a
handler: the recursive call receives `m[1:cap(m)]`, whose element is the nil in
the spare capacity, and calling it panics. -/
theorem MiddlewareChain_spare_capacity_nil_panics :
    spareNil.elems = [some (logging "A")] ∧
    MiddlewareChain terminal spareNil emptyStore = .error .nilFuncCall :=
  ⟨rfl, rfl⟩

/-- C7 (the code departs from the claim on a spread slice with spare capacity):
on the slice `arr[:1]` of `arr = [A, B]`, a middleware sequence of length
`N = 1`, one call of `MiddlewareChain` calls two middleware function values,
first `B`, which is no `m[i]` with `i < N`, then `A`. -/
theorem MiddlewareChain_spare_capacity_applies_beyond_len :
    spareAB.elems = [some (logging "A")] ∧
    spareAB.len = 1 ∧
    (∃ h, MiddlewareChain terminal spareAB emptyStore =
      .ok (h, ⟨[], [logging "B", logging "A"]⟩)) ∧
    (MiddlewareChain terminal spareAB emptyStore).toOption.map
      (fun r => r.2.applied.length) = some 2 :=
  ⟨rfl, rfl, ⟨_, rfl⟩, by decide⟩

/-- C8 (the code departs from the claim on a spread slice with spare capacity):
on the slice `arr[:1]` of `arr = [A, B]` the recursive `MiddlewareChain` builds
`A(B(T))` while the iterative accumulation for `i` from `len(m) - 1` down to 0
builds `A(T)`; and with nil in the spare capacity the recursion panics while
the iteration returns a handler. -/
theorem MiddlewareChain_spare_capacity_ne_iterativeChain :
    invoke (MiddlewareChain terminal spareAB emptyStore) () () () [] =
      ["A-pre", "B-pre", "T", "B-post", "A-post"] ∧
    invoke (iterativeChain terminal spareAB emptyStore) () () () [] =
      ["A-pre", "T", "A-post"] ∧
    MiddlewareChain terminal spareAB emptyStore ≠ iterativeChain terminal spareAB emptyStore ∧
    MiddlewareChain terminal spareNil emptyStore = .error .nilFuncCall ∧
    (∃ r, iterativeChain terminal spareNil emptyStore = .ok r) := by
  refine ⟨by decide, by decide, ?_, rfl, ⟨_, rfl⟩⟩
  intro h
  have h2 := congrArg (fun r => invoke r () () () []) h
  revert h2
  decide

/-- C9: for every `n`, with a retry middleware whose handler invokes `next`
exactly `n` times outermost and logging middlewares inside, one invocation of
the composed handler runs the whole inner chain (inner pre-entries in order,
`T`, inner post-entries in reverse order) exactly `n` times in sequence after
what the log already held. -/
theorem MiddlewareChain_repeated_delegation {κ ρ δ : Type} (n : Nat) (names : List String)
    (ctx : κ) (rw : ρ) (d : δ) (log : List String)
    (s : Store (HandlerFunc κ ρ δ (List String)) (List String)) :
    ∃ h s', MiddlewareChain terminal
        (variadic (some (retry n) :: names.map fun a => some (logging a))) s = .ok (h, s') ∧
      h ctx rw d log = log ++ (List.replicate n
        (names.map (· ++ "-pre") ++ ["T"] ++ names.reverse.map (· ++ "-post"))).flatten := by
  obtain ⟨h, s', hn, hh⟩ := nested_logging names (terminal : HandlerFunc κ ρ δ (List String)) s
  refine ⟨(retry n h s'.world).1, ⟨(retry n h s'.world).2, s'.applied ++ [retry n]⟩, ?_, ?_⟩
  · rw [MiddlewareChain_variadic, nested_cons, hn]
    rfl
  · have hfun : h ctx rw d = fun x =>
        x ++ (names.map (· ++ "-pre") ++ ["T"] ++ names.reverse.map (· ++ "-post")) := by
      funext x
      rw [hh]
      simp [terminal, List.append_assoc]
    show (h ctx rw d)^[n] log = _
    rw [hfun, iterate_append_block]

/-- C10 (the code departs from the claim on a spread slice with spare
capacity): on the slice `arr[:1]` of `arr = [A, flipCtx]`, whose one middleware
`A` passes the arguments it received unchanged to `next`, the handler
`MiddlewareChain` builds, invoked with context `true`, invokes the terminal
handler with context `false`: the middleware in the spare capacity has become
a layer of the chain. The nested application over the sequence itself hands
the terminal handler the context `true`. -/
theorem MiddlewareChain_spare_capacity_replaces_context :
    spareFlip.elems = [some (logging "A")] ∧
    PassesArguments
      (logging "A" : Transform (HandlerFunc Bool Unit Unit (List String)) (List String)) ∧
    invoke (MiddlewareChain terminalReporting spareFlip ⟨[], []⟩) true () () [] =
      ["A-pre", "T got false", "A-post"] ∧
    invoke (nested spareFlip.elems terminalReporting ⟨[], []⟩) true () () [] =
      ["A-pre", "T got true", "A-post"] :=
  ⟨rfl, logging_passesArguments "A", by decide, by decide⟩

/-- C11: for every slice `m` with `len(m) >= 1`, `MiddlewareChain(next, m...)`
is the right fold of the call over all `cap(m)` elements `m[0:cap(m)]` of the
backing array; for `len(m) == 0` it returns `next` whatever `cap(m)` is; and
when `cap(m) == len(m)` the result is the fold over `m[0:len(m)]`. -/
theorem MiddlewareChain_capacity_based_slicing {H σ : Type} (next : H)
    (m : Slice (MiddlewareFunc H σ)) (s : Store H σ) :
    (0 < m.len → ∃ full, m.slice 0 m.cap = .ok full ∧ full.elems = m.backing ∧
      MiddlewareChain next m s = nested full.elems next s) ∧
    (m.len = 0 → MiddlewareChain next m s = .ok (next, s)) ∧
    (m.cap = m.len → MiddlewareChain next m s = nested m.elems next s) := by
  refine ⟨?_, MiddlewareChain_len_zero next m s, ?_⟩
  · intro hlen
    refine ⟨⟨m.backing, m.backing.length, le_refl _⟩, ?_, ?_, ?_⟩
    · simp [Slice.slice, Slice.cap]
    · simp [Slice.elems]
    · simp only [Slice.elems, List.take_length]
      exact MiddlewareChain_pos next m s hlen
  · intro hcap
    have helems : m.elems = m.backing := by
      simp only [Slice.elems, ← hcap, Slice.cap, List.take_length]
    rw [helems]
    rcases Nat.eq_zero_or_pos m.len with h0 | hpos
    · have hnil : m.backing = [] := by
        apply List.eq_nil_of_length_eq_zero
        have := hcap
        simp only [Slice.cap] at this
        omega
      rw [MiddlewareChain_len_zero next m s h0, hnil]
      rfl
    · exact MiddlewareChain_pos next m s hpos

theorem MiddlewareChain_capacity_based_slicing_witness :
    0 < spareAB.len ∧
    (∃ full, spareAB.slice 0 spareAB.cap = .ok full ∧ full.elems = spareAB.backing ∧
      MiddlewareChain terminal spareAB emptyStore = nested full.elems terminal emptyStore) ∧
    emptySpare.len = 0 ∧
    MiddlewareChain terminal emptySpare emptyStore = .ok (terminal, emptyStore) ∧
    onlyA.cap = onlyA.len ∧
    MiddlewareChain terminal onlyA emptyStore = nested onlyA.elems terminal emptyStore :=
  ⟨by decide,
    (MiddlewareChain_capacity_based_slicing terminal spareAB emptyStore).1 (by decide),
    rfl,
    (MiddlewareChain_capacity_based_slicing terminal emptySpare emptyStore).2.1 rfl,
    rfl,
    (MiddlewareChain_capacity_based_slicing terminal onlyA emptyStore).2.2 rfl⟩

/-- C12: for every terminal handler and every slice `m`, of any length and
capacity, the recursion of `MiddlewareChain` terminates: the slice
`m[1:cap(m)]` of a non-empty `m` is in bounds and has length and capacity
`cap(m) - 1`, below `cap(m)`; every budget of at least `cap(m) + 1` nested
calls gives the same outcome, which is a returned handler or the panic of a nil
call and never an exhausted budget; and a non-empty `m` does use `cap(m) + 1`
nested calls, a budget of `cap(m)` being exhausted. -/
theorem MiddlewareChain_terminates {H σ : Type} (next : H)
    (m : Slice (MiddlewareFunc H σ)) (s : Store H σ) :
    (0 < m.len → ∃ rest, m.slice 1 m.cap = .ok rest ∧
      rest.len = m.cap - 1 ∧ rest.cap = m.cap - 1 ∧ rest.cap < m.cap) ∧
    (∀ fuel, m.cap + 1 ≤ fuel →
      MiddlewareChainFuel fuel next m s = MiddlewareChain next m s) ∧
    ((∃ r, MiddlewareChain next m s = .ok r) ∨
      MiddlewareChain next m s = .error .nilFuncCall) ∧
    (0 < m.len → MiddlewareChainFuel m.cap next m s = .error .outOfFuel) := by
  refine ⟨?_, ?_, ?_, MiddlewareChainFuel_pos_short next s m⟩
  · intro hlen
    obtain ⟨rest, hs, -, hl, hc⟩ := Slice.slice_one_cap_of_pos m hlen
    have hpos : 0 < m.cap := lt_of_lt_of_le hlen m.len_le
    exact ⟨rest, hs, hl, hc, by omega⟩
  · intro fuel hfuel
    rcases Nat.eq_zero_or_pos m.len with h0 | hpos
    · obtain ⟨k, rfl⟩ : ∃ k, fuel = k + 1 := ⟨fuel - 1, by omega⟩
      rw [MiddlewareChainFuel_len_zero next m s k h0, MiddlewareChain_len_zero next m s h0]
    · rw [MiddlewareChainFuel_pos next s m fuel hpos hfuel, MiddlewareChain_pos next m s hpos]
  · rcases Nat.eq_zero_or_pos m.len with h0 | hpos
    · exact Or.inl ⟨(next, s), MiddlewareChain_len_zero next m s h0⟩
    · rw [MiddlewareChain_pos next m s hpos]
      exact nested_ok_or_nilFuncCall m.backing next s

theorem MiddlewareChain_terminates_witness :
    0 < spareAB.len ∧
    (∃ rest, spareAB.slice 1 spareAB.cap = .ok rest ∧
      rest.len = spareAB.cap - 1 ∧ rest.cap = spareAB.cap - 1 ∧ rest.cap < spareAB.cap) ∧
    spareAB.cap + 1 ≤ 5 ∧
    MiddlewareChainFuel 5 terminal spareAB emptyStore =
      MiddlewareChain terminal spareAB emptyStore ∧
    MiddlewareChainFuel spareAB.cap terminal spareAB emptyStore = .error .outOfFuel :=
  ⟨by decide,
    (MiddlewareChain_terminates terminal spareAB emptyStore).1 (by decide),
    by decide,
    (MiddlewareChain_terminates terminal spareAB emptyStore).2.1 5 (by decide),
    (MiddlewareChain_terminates terminal spareAB emptyStore).2.2.2 (by decide)⟩

/-- C13: during one call `MiddlewareChain(T, m0, ..., m(k-1))` the middlewares
are called in reverse input order: for every position, with `q` the
middlewares after it and `p` those before it, the middleware `t` there is
called once those of `q` have been called, last first, and before any of `p`,
and the `next` it is given is the composition of `q` around `T`; the whole
record is the input reversed. With middlewares that log their setup, the setups
are logged last name first while one invocation logs the pre-entries first name
first; for `[A, B, C]` the setups are `C-setup, B-setup, A-setup`. -/
theorem MiddlewareChain_construction_order :
    (∀ (H σ : Type) (p q : List (Transform H σ)) (t : Transform H σ) (T : H) (s : Store H σ),
      ∃ inner s1 r,
        MiddlewareChain T (variadic (q.map some)) s = .ok (inner, s1) ∧
        s1.applied = s.applied ++ q.reverse ∧
        MiddlewareChain T (variadic ((p ++ t :: q).map some)) s = .ok r ∧
        MiddlewareChain (t inner s1.world).1 (variadic (p.map some))
          ⟨(t inner s1.world).2, s1.applied ++ [t]⟩ = .ok r ∧
        r.2.applied = s.applied ++ q.reverse ++ [t] ++ p.reverse ∧
        r.2.applied = s.applied ++ (p ++ t :: q).reverse) ∧
    (∀ (κ ρ δ : Type) (names : List String) (ctx : κ) (rw : ρ) (d : δ)
        (s : Store (HandlerFunc κ ρ δ (List String)) (List String)),
      ∃ h s', MiddlewareChain terminal (variadic (names.map fun n => some (announcing n))) s
          = .ok (h, s') ∧
        s'.world = s.world ++ names.reverse.map (· ++ "-setup") ∧
        h ctx rw d [] =
          names.map (· ++ "-pre") ++ ["T"] ++ names.reverse.map (· ++ "-post")) ∧
    (MiddlewareChain terminal
        (variadic [some (announcing "A"), some (announcing "B"), some (announcing "C")])
        emptyStore).toOption.map (fun r => r.2.world) =
      some ["C-setup", "B-setup", "A-setup"] := by
  refine ⟨?_, ?_, by decide⟩
  · intro H σ p q t T s
    obtain ⟨inner, s1, hq, hqa⟩ := nested_map_some q T s
    obtain ⟨h, s2, hp, hpa⟩ := nested_map_some p (t inner s1.world).1
      ⟨(t inner s1.world).2, s1.applied ++ [t]⟩
    refine ⟨inner, s1, (h, s2), ?_, hqa, ?_, ?_, ?_, ?_⟩
    · rw [MiddlewareChain_variadic, hq]
    · rw [MiddlewareChain_variadic, List.map_append, nested_append, List.map_cons, nested_cons,
        hq]
      exact hp
    · rw [MiddlewareChain_variadic]
      exact hp
    · simp [hpa, hqa]
    · simp [hpa, hqa]
  · intro κ ρ δ names ctx rw d s
    obtain ⟨h, s', hn, hw, hh⟩ :=
      nested_announcing names (terminal : HandlerFunc κ ρ δ (List String)) s
    refine ⟨h, s', ?_, hw, ?_⟩
    · rw [MiddlewareChain_variadic, hn]
    · rw [hh]
      simp [terminal]

end Server
